import Mathlib

/-!
Verification of the go-nickel boundary layer (src/include/nickel_lang.h,
src/nickel.c).  The header declares a C API over an external evaluator; the
data model and the operations are modelled here following the header doc
comments and the specification, since only declarations appear in the
repository sources.
-/

namespace Nickel

/-- Modelled from the spec: a tiny source-language AST standing in for the
UTF-8 Nickel source text handed to the missing evaluator (the evaluator
itself is an external collaborator, absent from src/).  It covers the
constructs the spec exercises: literals, addition, records whose fields may
carry a not-for-export mark, arrays, and enums. -/
inductive Src where
  | num (q : Rat)
  | boolLit (b : Bool)
  | strLit (s : String)
  | nullLit
  | add (a b : Src)
  | enumTag (t : String)
  | enumVariant (t : String) (payload : Src)
  | record (fields : List (String × Bool × Src))
  | array (elems : List Src)
deriving Repr

/-- The tagged union held by a nickel_expr handle, following section 3 of the
spec: Null, Bool, Number, Str, EnumTag, EnumVariant (name, payload), Record
(ordered (key, optional value) pairs), Array, or an unevaluated thunk. -/
inductive NExpr where
  | null
  | bool (b : Bool)
  | number (q : Rat)
  | str (s : String)
  | enumTag (t : String)
  | enumVariant (t : String) (payload : NExpr)
  | record (fields : List (String × Option NExpr))
  | array (elems : List NExpr)
  | unevaluated (thunk : Src)
deriving Repr

/-- Evaluation errors reported through the Result channel. -/
inductive EvalError where
  | typeError
deriving Repr, DecidableEq

/-- nickel_expr_is_null. -/
def nickel_expr_is_null : NExpr → Bool
  | .null => true
  | _ => false

/-- nickel_expr_is_bool. -/
def nickel_expr_is_bool : NExpr → Bool
  | .bool _ => true
  | _ => false

/-- nickel_expr_is_number. -/
def nickel_expr_is_number : NExpr → Bool
  | .number _ => true
  | _ => false

/-- nickel_expr_is_str. -/
def nickel_expr_is_str : NExpr → Bool
  | .str _ => true
  | _ => false

/-- nickel_expr_is_enum_tag. -/
def nickel_expr_is_enum_tag : NExpr → Bool
  | .enumTag _ => true
  | _ => false

/-- nickel_expr_is_enum_variant. -/
def nickel_expr_is_enum_variant : NExpr → Bool
  | .enumVariant _ _ => true
  | _ => false

/-- nickel_expr_is_record. -/
def nickel_expr_is_record : NExpr → Bool
  | .record _ => true
  | _ => false

/-- nickel_expr_is_array. -/
def nickel_expr_is_array : NExpr → Bool
  | .array _ => true
  | _ => false

/-- nickel_expr_is_value: per the header, an evaluated expression is either
null, or a number, bool, string, record, array, or enum. -/
def nickel_expr_is_value : NExpr → Bool
  | .unevaluated _ => false
  | _ => true

/-- nickel_expr_as_bool; the header says it panics on a non-boolean, so the
abort is modelled as the none branch. -/
def nickel_expr_as_bool : NExpr → Option Bool
  | .bool b => some b
  | _ => none

/-- nickel_expr_as_str; abort modelled as none. -/
def nickel_expr_as_str : NExpr → Option String
  | .str s => some s
  | _ => none

/-- nickel_expr_as_number; abort modelled as none. -/
def nickel_expr_as_number : NExpr → Option Rat
  | .number q => some q
  | _ => none

/-- nickel_expr_as_enum_tag; abort modelled as none. -/
def nickel_expr_as_enum_tag : NExpr → Option String
  | .enumTag t => some t
  | _ => none

/-- nickel_expr_as_enum_variant; abort modelled as none. -/
def nickel_expr_as_enum_variant : NExpr → Option (String × NExpr)
  | .enumVariant t p => some (t, p)
  | _ => none

/-- nickel_expr_as_record; abort modelled as none. -/
def nickel_expr_as_record : NExpr → Option (List (String × Option NExpr))
  | .record fs => some fs
  | _ => none

/-- nickel_expr_as_array; abort modelled as none. -/
def nickel_expr_as_array : NExpr → Option (List NExpr)
  | .array es => some es
  | _ => none

mutual

/-- Modelled from the spec: the deep evaluator behind nickel_context_eval_deep
(forExport = false) and nickel_context_eval_deep_for_export (forExport =
true), which are absent from src/.  Deep evaluation recursively forces every
record field, array element and enum-variant payload; the for-export variant
additionally omits fields marked not_exported. -/
def evalDeepAux (forExport : Bool) : Src → Except EvalError NExpr
  | .num q => .ok (.number q)
  | .boolLit b => .ok (.bool b)
  | .strLit s => .ok (.str s)
  | .nullLit => .ok .null
  | .add a b =>
      match evalDeepAux forExport a, evalDeepAux forExport b with
      | .ok (.number x), .ok (.number y) => .ok (.number (x + y))
      | .error e, _ => .error e
      | _, .error e => .error e
      | _, _ => .error .typeError
  | .enumTag t => .ok (.enumTag t)
  | .enumVariant t p =>
      match evalDeepAux forExport p with
      | .ok v => .ok (.enumVariant t v)
      | .error e => .error e
  | .record fs =>
      match evalFieldsDeep forExport fs with
      | .ok nfs => .ok (.record nfs)
      | .error e => .error e
  | .array es =>
      match evalElemsDeep forExport es with
      | .ok vs => .ok (.array vs)
      | .error e => .error e

/-- Modelled from the spec: deep evaluation of the field list of a record
source; when forExport holds, fields marked not_exported are skipped. -/
def evalFieldsDeep (forExport : Bool) :
    List (String × Bool × Src) → Except EvalError (List (String × Option NExpr))
  | [] => .ok []
  | (k, ne, s) :: rest =>
      if forExport && ne then evalFieldsDeep forExport rest
      else
        match evalDeepAux forExport s, evalFieldsDeep forExport rest with
        | .ok v, .ok vs => .ok ((k, some v) :: vs)
        | .error e, _ => .error e
        | _, .error e => .error e

/-- Modelled from the spec: deep evaluation of the element list of an array
source. -/
def evalElemsDeep (forExport : Bool) : List Src → Except EvalError (List NExpr)
  | [] => .ok []
  | s :: rest =>
      match evalDeepAux forExport s, evalElemsDeep forExport rest with
      | .ok v, .ok vs => .ok (v :: vs)
      | .error e, _ => .error e
      | _, .error e => .error e

end

/-- nickel_context_eval_deep, modelled from the spec (the evaluator is absent
from src/): fully forces the value and every reachable sub-value. -/
def nickel_context_eval_deep (src : Src) : Except EvalError NExpr :=
  evalDeepAux false src

/-- nickel_context_eval_deep_for_export, modelled from the spec: identical to
nickel_context_eval_deep except that fields marked not_exported are omitted
from the result. -/
def nickel_context_eval_deep_for_export (src : Src) : Except EvalError NExpr :=
  evalDeepAux true src

/-- Modelled from the spec: the shallow (WHNF) evaluator behind
nickel_context_eval_shallow, absent from src/.  The top-level tag of the
result is resolved, but record field values, array elements and enum-variant
payloads are left as unevaluated thunks. -/
def evalShallowSrc : Src → Except EvalError NExpr
  | .num q => .ok (.number q)
  | .boolLit b => .ok (.bool b)
  | .strLit s => .ok (.str s)
  | .nullLit => .ok .null
  | .add a b =>
      match evalShallowSrc a, evalShallowSrc b with
      | .ok (.number x), .ok (.number y) => .ok (.number (x + y))
      | .error e, _ => .error e
      | _, .error e => .error e
      | _, _ => .error .typeError
  | .enumTag t => .ok (.enumTag t)
  | .enumVariant t p => .ok (.enumVariant t (.unevaluated p))
  | .record fs => .ok (.record (fs.map (fun f => (f.1, some (.unevaluated f.2.2)))))
  | .array es => .ok (.array (es.map (fun s => .unevaluated s)))

/-- nickel_context_eval_shallow, modelled from the spec. -/
def nickel_context_eval_shallow (src : Src) : Except EvalError NExpr :=
  evalShallowSrc src

/-- nickel_context_eval_expr_shallow, modelled from the spec and header: it
has no effect if the expression is already evaluated (see
nickel_expr_is_value); otherwise it forces the thunk one step to WHNF.  The
second component counts how many times the external evaluator was invoked,
so that the no-op contract is observable. -/
def nickel_context_eval_expr_shallow (e : NExpr) : Except EvalError NExpr × Nat :=
  match e with
  | .unevaluated s => (evalShallowSrc s, 1)
  | v => (.ok v, 0)

/-- nickel_record_len. -/
def nickel_record_len (r : List (String × Option NExpr)) : Nat := r.length

/-- nickel_array_len. -/
def nickel_array_len (es : List NExpr) : Nat := es.length

/-- nickel_array_get; the header says it panics when the index is out of
bounds, modelled as the none branch. -/
def nickel_array_get (es : List NExpr) (i : Nat) : Option NExpr := es.get? i

/-- nickel_record_key_value_by_index: returns the key and optional value at
the given index; the out-of-range panic is modelled as the none branch.  The
has-value flag of the C function is the isSome of the second component of
the returned pair. -/
def nickel_record_key_value_by_index (r : List (String × Option NExpr)) (i : Nat) :
    Option (String × Option NExpr) :=
  r.get? i

/-- nickel_record_value_by_name: looks a key up in the record and returns its
value if there is one.  The flag of the C function is 1 exactly when the result
here is some. -/
def nickel_record_value_by_name (r : List (String × Option NExpr)) (k : String) :
    Option NExpr :=
  (List.lookup k r).join

/-- nickel_number_is_i64: is this number an integer within the range of an
int64_t? -/
def nickel_number_is_i64 (q : Rat) : Bool :=
  q.den == 1 && decide ((-(2 ^ 63) : Int) ≤ q.num) && decide (q.num ≤ 2 ^ 63 - 1)

/-- nickel_number_as_i64; the header says it panics when the number is not an
integer in range, modelled as the none branch. -/
def nickel_number_as_i64 (q : Rat) : Option Int :=
  if nickel_number_is_i64 q then some q.num else none

/-- Wraps a string in double quotes (escaping of inner characters is out of
scope for the spec, which treats the concrete writers as external). -/
def jsonQuote (s : String) : String := "\"" ++ s ++ "\""

mutual

/-- Modelled from the spec: the JSON writer behind
nickel_context_expr_to_json, absent from src/.  Only its success/failure
contract matters: it fails on enum variants (no canonical mapping), on
unevaluated sub-expressions, and on record fields that carry no value. -/
def toJsonCore : NExpr → Except Unit String
  | .null => .ok "null"
  | .bool b => .ok (if b then "true" else "false")
  | .number q => .ok (toString q.num ++ "/" ++ toString q.den)
  | .str s => .ok (jsonQuote s)
  | .enumTag t => .ok (jsonQuote t)
  | .enumVariant _ _ => .error ()
  | .unevaluated _ => .error ()
  | .record fs =>
      match toJsonFields fs with
      | .ok body => .ok ("\x7b" ++ body ++ "\x7d")
      | .error e => .error e
  | .array es =>
      match toJsonElems es with
      | .ok body => .ok ("[" ++ body ++ "]")
      | .error e => .error e

/-- Modelled from the spec: JSON rendering of record fields. -/
def toJsonFields : List (String × Option NExpr) → Except Unit String
  | [] => .ok ""
  | (_, none) :: _ => .error ()
  | (k, some v) :: rest =>
      match toJsonCore v, toJsonFields rest with
      | .ok sv, .ok srest => .ok (jsonQuote k ++ ":" ++ sv ++ "," ++ srest)
      | .error e, _ => .error e
      | _, .error e => .error e

/-- Modelled from the spec: JSON rendering of array elements. -/
def toJsonElems : List NExpr → Except Unit String
  | [] => .ok ""
  | v :: rest =>
      match toJsonCore v, toJsonElems rest with
      | .ok sv, .ok srest => .ok (sv ++ "," ++ srest)
      | .error e, _ => .error e
      | _, .error e => .error e

end

/-- nickel_context_expr_to_json, modelled from the spec. -/
def nickel_context_expr_to_json (e : NExpr) : Except Unit String :=
  toJsonCore e

/-- nickel_context_expr_to_yaml, modelled from the spec: the concrete YAML
writer is an external collaborator whose output content is out of scope; it
shares the success/failure contract of the JSON writer. -/
def nickel_context_expr_to_yaml (e : NExpr) : Except Unit String :=
  (toJsonCore e).map (fun s => "---\n" ++ s)

/-- nickel_context_expr_to_toml, modelled from the spec: the concrete TOML
writer is an external collaborator whose output content is out of scope; it
shares the success/failure contract of the JSON writer. -/
def nickel_context_expr_to_toml (e : NExpr) : Except Unit String :=
  (toJsonCore e).map (fun s => "# toml\n" ++ s)

mutual

/-- Does the expression transitively contain an enum variant? -/
def containsEnumVariant : NExpr → Bool
  | .enumVariant _ _ => true
  | .record fs => containsEnumVariantFields fs
  | .array es => containsEnumVariantElems es
  | _ => false

/-- Does some field value transitively contain an enum variant? -/
def containsEnumVariantFields : List (String × Option NExpr) → Bool
  | [] => false
  | (_, none) :: rest => containsEnumVariantFields rest
  | (_, some v) :: rest => containsEnumVariant v || containsEnumVariantFields rest

/-- Does some element transitively contain an enum variant? -/
def containsEnumVariantElems : List NExpr → Bool
  | [] => false
  | v :: rest => containsEnumVariant v || containsEnumVariantElems rest

end

mutual

/-- Does the expression transitively contain an unevaluated sub-expression? -/
def containsUnevaluated : NExpr → Bool
  | .unevaluated _ => true
  | .enumVariant _ p => containsUnevaluated p
  | .record fs => containsUnevaluatedFields fs
  | .array es => containsUnevaluatedElems es
  | _ => false

/-- Does some field value transitively contain an unevaluated
sub-expression? -/
def containsUnevaluatedFields : List (String × Option NExpr) → Bool
  | [] => false
  | (_, none) :: rest => containsUnevaluatedFields rest
  | (_, some v) :: rest => containsUnevaluated v || containsUnevaluatedFields rest

/-- Does some element transitively contain an unevaluated sub-expression? -/
def containsUnevaluatedElems : List NExpr → Bool
  | [] => false
  | v :: rest => containsUnevaluated v || containsUnevaluatedElems rest

end

mutual

/-- An expression is fully specified when every record field, transitively,
carries a value (shallowly evaluated records may have fields with no
value). -/
def fullySpecified : NExpr → Bool
  | .record fs => fullySpecifiedFields fs
  | .array es => fullySpecifiedElems es
  | .enumVariant _ p => fullySpecified p
  | _ => true

/-- Every field carries a fully specified value. -/
def fullySpecifiedFields : List (String × Option NExpr) → Bool
  | [] => true
  | (_, none) :: _ => false
  | (_, some v) :: rest => fullySpecified v && fullySpecifiedFields rest

/-- Every element is fully specified. -/
def fullySpecifiedElems : List NExpr → Bool
  | [] => true
  | v :: rest => fullySpecified v && fullySpecifiedElems rest

end

/-- nickel_error_format: the closed enumeration of diagnostic formats. -/
inductive nickel_error_format where
  | text
  | ansiText
  | json
  | yaml
  | toml
deriving Repr, DecidableEq

/-- A populated nickel_error: the stored diagnostic payload (structured
message, optional source span, optional call trace), per section 3 of the
spec. -/
structure nickel_error where
  message : String
  span : Option (String × Nat × Nat)
  callTrace : List String
deriving Repr, DecidableEq

/-- Renders an optional source span. -/
def spanText : Option (String × Nat × Nat) → String
  | none => ""
  | some (f, a, b) => " at " ++ f ++ ":" ++ toString a ++ "-" ++ toString b

/-- Modelled from the spec: the format-parameterized diagnostic renderer
behind nickel_error_display and nickel_error_format_as_string, absent from
src/.  It is a pure function of the stored diagnostic and the format. -/
def renderDiagnostic (fmt : nickel_error_format) (e : nickel_error) : String :=
  match fmt with
  | .text => "error: " ++ e.message ++ spanText e.span
  | .ansiText => "\x1b[31merror\x1b[0m: " ++ e.message ++ spanText e.span
  | .json => "\x7b\"message\":" ++ jsonQuote e.message ++ "\x7d"
  | .yaml => "message: " ++ jsonQuote e.message
  | .toml => "message = " ++ jsonQuote e.message

/-- nickel_error_display, modelled from the spec: rendering emits the
formatted diagnostic through the callback sink and is side-effect-free on
the error object, so the model returns the rendered bytes together with the
state of the error object after the call. -/
def nickel_error_display (fmt : nickel_error_format) (e : nickel_error) :
    String × nickel_error :=
  (renderDiagnostic fmt e, e)

/-- nickel_error_format_as_string, modelled from the spec: like
nickel_error_display, but writes the rendered diagnostic into a string
buffer. -/
def nickel_error_format_as_string (fmt : nickel_error_format) (e : nickel_error) :
    String :=
  renderDiagnostic fmt e

/-- A sequence of renderings of one error object in an arbitrary
interleaving of formats, threading the error object state through every
call. -/
def renderSequence : List nickel_error_format → nickel_error → List String × nickel_error
  | [], e => ([], e)
  | f :: rest, e =>
      let p := nickel_error_display f e
      let q := renderSequence rest p.2
      (p.1 :: q.1, q.2)

/-- Modelled from the spec: the loop on the emitting side of a
nickel_write_callback.  The callback (indexed by invocation number) is
offered the remaining buffer and returns how many bytes it consumed; the
emitter retries with the unconsumed remainder.  A zero-consumption answer
violates the callback contract and is modelled as the emitter giving up.
The result is the list of chunks consumed by successive invocations. -/
def writeCallbackLoop (cb : Nat → List Nat → Nat) (k : Nat) :
    List Nat → List (List Nat)
  | [] => []
  | b :: rest =>
      if h : cb k (b :: rest) = 0 then []
      else
        (b :: rest).take (cb k (b :: rest)) ::
          writeCallbackLoop cb (k + 1) ((b :: rest).drop (cb k (b :: rest)))
termination_by l => l.length
decreasing_by simp [List.length_drop]; omega

mutual

/-- Does the source program contain no field marked not_exported? -/
def srcNoNotExported : Src → Bool
  | .add a b => srcNoNotExported a && srcNoNotExported b
  | .enumVariant _ p => srcNoNotExported p
  | .record fs => srcFieldsNoNotExported fs
  | .array es => srcElemsNoNotExported es
  | _ => true

/-- No field of the list is marked not_exported, transitively. -/
def srcFieldsNoNotExported : List (String × Bool × Src) → Bool
  | [] => true
  | (_, ne, s) :: rest => !ne && srcNoNotExported s && srcFieldsNoNotExported rest

/-- No element of the list contains a field marked not_exported. -/
def srcElemsNoNotExported : List Src → Bool
  | [] => true
  | s :: rest => srcNoNotExported s && srcElemsNoNotExported rest

end

/-- The source text of the depth-contract test in the spec:
the record with field a defined as 1 + 1 and field b defined as the
array of 1 and 2. -/
def c1src : Src :=
  .record [("a", false, .add (.num 1) (.num 1)),
           ("b", false, .array [.num 1, .num 2])]

/-- A successful shallow evaluation always produces a WHNF value: the
top-level tag is resolved, so nickel_expr_is_value holds on the result. -/
theorem evalShallowSrc_isValue (s : Src) (v : NExpr) (h : evalShallowSrc s = .ok v) :
    nickel_expr_is_value v = true := by
  cases s <;> simp only [evalShallowSrc] at h
  case add a b =>
    split at h
    · cases h; rfl
    all_goals simp at h
  all_goals (cases h; rfl)

/-- C1: for the source of c1src, a successful shallow evaluation
(nickel_context_eval_shallow) yields an expression whose top-level
classification is record and whose field a is not yet a value
(nickel_expr_is_value reports false on it) until it is explicitly forced
(after forcing it is the number 2), while a successful deep evaluation
(nickel_context_eval_deep) of the same source yields a record whose field a
is the number 2. -/
theorem C1_depth_contract :
    nickel_context_eval_shallow c1src =
      .ok (.record [("a", some (.unevaluated (.add (.num 1) (.num 1)))),
                    ("b", some (.unevaluated (.array [.num 1, .num 2])))])
    ∧ nickel_expr_is_record
        (.record [("a", some (.unevaluated (.add (.num 1) (.num 1)))),
                  ("b", some (.unevaluated (.array [.num 1, .num 2])))]) = true
    ∧ nickel_record_value_by_name
        [("a", some (.unevaluated (.add (.num 1) (.num 1)))),
         ("b", some (.unevaluated (.array [.num 1, .num 2])))] "a" =
        some (.unevaluated (.add (.num 1) (.num 1)))
    ∧ nickel_expr_is_value (.unevaluated (.add (.num 1) (.num 1))) = false
    ∧ (nickel_context_eval_expr_shallow (.unevaluated (.add (.num 1) (.num 1)))).1 =
        .ok (.number 2)
    ∧ nickel_context_eval_deep c1src =
        .ok (.record [("a", some (.number 2)),
                      ("b", some (.array [.number 1, .number 2]))])
    ∧ nickel_record_value_by_name
        [("a", some (.number 2)), ("b", some (.array [.number 1, .number 2]))] "a" =
        some (.number 2)
    ∧ nickel_expr_is_number (.number 2) = true := by
  have h2 : (1 : Rat) + 1 = 2 := by norm_num
  refine ⟨rfl, rfl, rfl, rfl, ?_, ?_, rfl, rfl⟩
  · simp [nickel_context_eval_expr_shallow, evalShallowSrc, h2]
  · simp [nickel_context_eval_deep, evalDeepAux, evalFieldsDeep, evalElemsDeep, c1src, h2]

/-- C2: nickel_context_eval_expr_shallow is idempotent.  On a handle that is
already a value it is a no-op returning success immediately with zero
evaluator invocations, and after any successful call the result is a value
on which a second call is again a no-op, so the evaluator-forcing work of
two calls happens at most once. -/
theorem C2_eval_expr_shallow_idempotent :
    (∀ e : NExpr, nickel_expr_is_value e = true →
        nickel_context_eval_expr_shallow e = (.ok e, 0))
    ∧ (∀ (e v : NExpr) (n : Nat), nickel_context_eval_expr_shallow e = (.ok v, n) →
        nickel_context_eval_expr_shallow v = (.ok v, 0) ∧ n ≤ 1) := by
  constructor
  · intro e he
    cases e <;> simp_all [nickel_context_eval_expr_shallow, nickel_expr_is_value]
  · intro e v n h
    cases e <;>
      simp only [nickel_context_eval_expr_shallow, Prod.mk.injEq, Except.ok.injEq] at h
    case unevaluated s =>
      obtain ⟨h1, h2⟩ := h
      have hval := evalShallowSrc_isValue s v h1
      constructor
      · cases v <;> simp_all [nickel_context_eval_expr_shallow, nickel_expr_is_value]
      · omega
    all_goals
      obtain ⟨h1, h2⟩ := h
    all_goals subst h1
    all_goals subst h2
    all_goals exact ⟨rfl, by omega⟩

/-- C2 witness: the theorem applied to the already-evaluated boolean
handle. -/
theorem C2_witness :
    nickel_context_eval_expr_shallow (.bool true) = (.ok (.bool true), 0) :=
  C2_eval_expr_shallow_idempotent.1 (.bool true) rfl

/-- C4: every tag-matched accessor succeeds exactly when the matching
classification predicate is true (so under the predicate precondition its
abort branch, modelled as none, is unreachable), on a tag-mismatched call it
aborts (returns none) rather than returning a sentinel through the Result
channel, and on a matched call it returns exactly the stored payload. -/
theorem C4_accessor_contract (e : NExpr) (b : Bool) (s : String) (q : Rat)
    (t : String) (p : NExpr) (fs : List (String × Option NExpr)) (es : List NExpr) :
    ((nickel_expr_as_bool e).isSome = nickel_expr_is_bool e)
    ∧ ((nickel_expr_as_str e).isSome = nickel_expr_is_str e)
    ∧ ((nickel_expr_as_number e).isSome = nickel_expr_is_number e)
    ∧ ((nickel_expr_as_enum_tag e).isSome = nickel_expr_is_enum_tag e)
    ∧ ((nickel_expr_as_enum_variant e).isSome = nickel_expr_is_enum_variant e)
    ∧ ((nickel_expr_as_record e).isSome = nickel_expr_is_record e)
    ∧ ((nickel_expr_as_array e).isSome = nickel_expr_is_array e)
    ∧ nickel_expr_as_bool (.bool b) = some b
    ∧ nickel_expr_as_str (.str s) = some s
    ∧ nickel_expr_as_number (.number q) = some q
    ∧ nickel_expr_as_enum_tag (.enumTag t) = some t
    ∧ nickel_expr_as_enum_variant (.enumVariant t p) = some (t, p)
    ∧ nickel_expr_as_record (.record fs) = some fs
    ∧ nickel_expr_as_array (.array es) = some es := by
  refine ⟨?_, ?_, ?_, ?_, ?_, ?_, ?_, rfl, rfl, rfl, rfl, rfl, rfl, rfl⟩ <;>
    cases e <;> rfl

/-- C7: rendering a populated error object is deterministic and
side-effect-free.  Threading the error object through any interleaving of
formats produces, at each position, exactly the bytes a fresh rendering of
that format would produce (so repeated renderings of one format are
byte-identical, through nickel_error_display as well as
nickel_error_format_as_string), and it leaves the stored diagnostic
unchanged. -/
theorem C7_error_render_stable (e : nickel_error) (fmts : List nickel_error_format) :
    (renderSequence fmts e).1 = fmts.map (fun f => nickel_error_format_as_string f e)
    ∧ (renderSequence fmts e).2 = e := by
  induction fmts with
  | nil => exact ⟨rfl, rfl⟩
  | cons f rest ih =>
      constructor
      · have hcons : (renderSequence (f :: rest) e).1 =
            nickel_error_format_as_string f e :: (renderSequence rest e).1 := rfl
        rw [hcons, ih.1, List.map_cons]
      · exact ih.2

/-- C9: the classification predicates are mutually exclusive and complete
over evaluated values: at most one of the eight predicates holds of any
expression, and nickel_expr_is_value is exactly their disjunction.  Since
this holds of every expression, every operation that overwrites a handle
preserves it. -/
theorem C9_classification_partition (e : NExpr) :
    ([nickel_expr_is_null e, nickel_expr_is_bool e, nickel_expr_is_number e,
      nickel_expr_is_str e, nickel_expr_is_enum_tag e, nickel_expr_is_enum_variant e,
      nickel_expr_is_record e, nickel_expr_is_array e].count true ≤ 1)
    ∧ (nickel_expr_is_value e =
        (nickel_expr_is_null e || nickel_expr_is_bool e || nickel_expr_is_number e ||
         nickel_expr_is_str e || nickel_expr_is_enum_tag e || nickel_expr_is_enum_variant e ||
         nickel_expr_is_record e || nickel_expr_is_array e)) := by
  cases e <;>
    simp [nickel_expr_is_null, nickel_expr_is_bool, nickel_expr_is_number,
      nickel_expr_is_str, nickel_expr_is_enum_tag, nickel_expr_is_enum_variant,
      nickel_expr_is_record, nickel_expr_is_array, nickel_expr_is_value,
      List.count_cons, List.count_nil]

/-- In a record whose keys are distinct, looking up the key stored at
position i finds exactly the entry at position i. -/
theorem lookup_key_at_index :
    ∀ (r : List (String × Option NExpr)), (r.map Prod.fst).Nodup →
      ∀ (i : Nat) (h : i < r.length),
        List.lookup (r.get ⟨i, h⟩).1 r = some (r.get ⟨i, h⟩).2 := by
  intro r
  induction r with
  | nil => intro _ i h; simp at h
  | cons x rest ih =>
      intro hnodup i h
      obtain ⟨k, v⟩ := x
      have hnodup' : (k :: rest.map Prod.fst).Nodup := by simpa using hnodup
      obtain ⟨hhead, htail⟩ := List.nodup_cons.mp hnodup'
      cases i with
      | zero => simp [List.lookup]
      | succ j =>
          have hj : j < rest.length := by simpa using h
          have hget : ((k, v) :: rest).get ⟨j + 1, h⟩ = rest.get ⟨j, hj⟩ := rfl
          have hmem : (rest.get ⟨j, hj⟩).1 ∈ rest.map Prod.fst :=
            List.mem_map_of_mem Prod.fst (rest.get_mem j hj)
          have hne : ((rest.get ⟨j, hj⟩).1 == k) = false := by
            refine beq_eq_false_iff_ne.mpr ?_
            intro hEq
            exact hhead (hEq ▸ hmem)
          rw [hget]
          simp only [List.lookup]
          rw [hne]
          exact ih htail j hj

/-- C10: record access by name agrees with access by index: in a record
whose keys are distinct, looking up the key returned for index i yields the
same optional value as the index access itself (hence the same has-value
flag, and the same value whenever the flag is set). -/
theorem C10_by_name_agrees_by_index (r : List (String × Option NExpr)) (i : Nat)
    (h : i < r.length) (hnodup : (r.map Prod.fst).Nodup) :
    nickel_record_key_value_by_index r i = some (r.get ⟨i, h⟩)
    ∧ nickel_record_value_by_name r (r.get ⟨i, h⟩).1 = (r.get ⟨i, h⟩).2 := by
  constructor
  · exact List.get?_eq_get h
  · show (List.lookup (r.get ⟨i, h⟩).1 r).join = (r.get ⟨i, h⟩).2
    rw [lookup_key_at_index r hnodup i h]
    rfl

/-- C10 witness: the theorem applied at index 1 of a concrete two-field
record whose second field has no value. -/
theorem C10_witness :
    nickel_record_key_value_by_index [("a", some NExpr.null), ("b", none)] 1 =
      some ("b", none)
    ∧ nickel_record_value_by_name [("a", some NExpr.null), ("b", none)] "b" = none := by
  have h := C10_by_name_agrees_by_index [("a", some NExpr.null), ("b", none)] 1
    (by decide) (by decide)
  exact ⟨h.1, h.2⟩

/-- C5: nickel_number_is_i64 holds exactly when the number is an integer
representable in 64 bits; under that precondition nickel_number_as_i64
returns exactly that integer (the numerator, which then equals the number
itself); and for the rational 1/3 the classification reports false. -/
theorem C5_number_i64_exact (q : Rat) :
    (nickel_number_is_i64 q = true ↔
      ∃ n : Int, -(2 ^ 63) ≤ n ∧ n ≤ 2 ^ 63 - 1 ∧ q = (n : Rat))
    ∧ (nickel_number_is_i64 q = true →
        nickel_number_as_i64 q = some q.num ∧ ((q.num : Rat) = q))
    ∧ nickel_number_is_i64 ((1 : Rat) / 3) = false := by
  have key : ∀ r : Rat, nickel_number_is_i64 r = true ↔
      ∃ n : Int, -(2 ^ 63) ≤ n ∧ n ≤ 2 ^ 63 - 1 ∧ r = (n : Rat) := by
    intro r
    constructor
    · intro h
      simp only [nickel_number_is_i64, Bool.and_eq_true, beq_iff_eq,
        decide_eq_true_eq] at h
      obtain ⟨⟨hden, h1⟩, h2⟩ := h
      exact ⟨r.num, h1, h2, ((Rat.den_eq_one_iff r).mp hden).symm⟩
    · rintro ⟨n, h1, h2, rfl⟩
      simp only [nickel_number_is_i64, Bool.and_eq_true, beq_iff_eq,
        decide_eq_true_eq]
      refine ⟨⟨Rat.den_intCast n, ?_⟩, ?_⟩
      · simpa using h1
      · simpa using h2
  refine ⟨key q, ?_, ?_⟩
  · intro h
    refine ⟨by simp [nickel_number_as_i64, h], ?_⟩
    simp only [nickel_number_is_i64, Bool.and_eq_true, beq_iff_eq,
      decide_eq_true_eq] at h
    exact (Rat.den_eq_one_iff q).mp h.1.1
  · cases hb : nickel_number_is_i64 ((1 : Rat) / 3) with
    | false => rfl
    | true =>
        exfalso
        obtain ⟨n, _, _, hq⟩ := (key _).mp hb
        have h3 : (1 : Rat) = 3 * n := by
          field_simp at hq
          linarith
        have h4 : (1 : Int) = 3 * n := by exact_mod_cast h3
        omega

/-- C5 witness: the theorem applied at the integer number five. -/
theorem C5_witness :
    nickel_number_is_i64 (5 : Rat) = true
    ∧ nickel_number_as_i64 (5 : Rat) = some (5 : Rat).num := by
  have h := C5_number_i64_exact (5 : Rat)
  have ht : nickel_number_is_i64 (5 : Rat) = true :=
    h.1.mpr ⟨5, by norm_num, by norm_num, by norm_num⟩
  exact ⟨ht, (h.2.1 ht).1⟩

/-- Under a callback that always consumes at least one byte of a non-empty
offer, the retry loop delivers every byte: the concatenation of the consumed
chunks is the original data. -/
theorem writeCallbackLoop_join_of_pos (cb : Nat → List Nat → Nat)
    (hpos : ∀ (j : Nat) (d : List Nat), d ≠ [] → 1 ≤ cb j d) :
    ∀ (n : Nat) (data : List Nat), data.length ≤ n → ∀ k : Nat,
      (writeCallbackLoop cb k data).flatten = data := by
  intro n
  induction n with
  | zero =>
      intro data hlen k
      have hnil : data = [] := List.eq_nil_of_length_eq_zero (Nat.le_zero.mp hlen)
      subst hnil
      simp [writeCallbackLoop]
  | succ n ih =>
      intro data hlen k
      cases data with
      | nil => simp [writeCallbackLoop]
      | cons b rest =>
          have hc : ¬ cb k (b :: rest) = 0 := by
            have := hpos k (b :: rest) (by simp)
            omega
          rw [writeCallbackLoop, dif_neg hc]
          have hlen2 : ((b :: rest).drop (cb k (b :: rest))).length ≤ n := by
            have h1 := hpos k (b :: rest) (by simp)
            simp only [List.length_drop, List.length_cons]
            simp only [List.length_cons] at hlen
            omega
          rw [List.flatten_cons, ih _ hlen2 (k + 1)]
          exact List.take_append_drop _ _

/-- C8: for every byte sequence and every write callback that consumes at
least one but possibly fewer bytes than offered on each invocation, the
emitting code retries with the unconsumed remainder until the complete byte
sequence has been delivered to the callback, in order, with no byte skipped
or duplicated: the chunks consumed by the successive invocations
concatenate to exactly the original sequence. -/
theorem C8_write_callback_delivery (cb : Nat → List Nat → Nat) (data : List Nat)
    (hpos : ∀ (j : Nat) (d : List Nat), d ≠ [] → 1 ≤ cb j d) :
    (writeCallbackLoop cb 0 data).flatten = data :=
  writeCallbackLoop_join_of_pos cb hpos data.length data (le_refl _) 0

/-- C8 witness: a callback that consumes half of each offered buffer (but at
least one byte) still delivers the complete eight-byte sequence in order. -/
theorem C8_witness :
    (writeCallbackLoop (fun _ d => max 1 (d.length / 2)) 0
        [9, 8, 7, 6, 5, 4, 3, 2]).flatten = [9, 8, 7, 6, 5, 4, 3, 2] :=
  C8_write_callback_delivery (fun _ d => max 1 (d.length / 2)) [9, 8, 7, 6, 5, 4, 3, 2]
    (fun _ d _ => le_max_left 1 (d.length / 2))

mutual


theorem toJsonCore_isOk_iff (e : NExpr) (h : fullySpecified e = true) :
    (toJsonCore e).isOk = false ↔
      (containsEnumVariant e || containsUnevaluated e) = true := by
  cases e with
  | record fs =>
      have hf := toJsonFields_isOk_iff fs (by simpa [fullySpecified] using h)
      simp only [toJsonCore, containsEnumVariant, containsUnevaluated]
      cases hjf : toJsonFields fs with
      | ok body =>
          simp only [hjf] at hf
          simpa [Except.isOk, Except.toBool] using hf
      | error u =>
          simp only [hjf] at hf
          simpa [Except.isOk, Except.toBool] using hf
  | array es =>
      have hf := toJsonElems_isOk_iff es (by simpa [fullySpecified] using h)
      simp only [toJsonCore, containsEnumVariant, containsUnevaluated]
      cases hjf : toJsonElems es with
      | ok body =>
          simp only [hjf] at hf
          simpa [Except.isOk, Except.toBool] using hf
      | error u =>
          simp only [hjf] at hf
          simpa [Except.isOk, Except.toBool] using hf
  | enumVariant t p =>
      simp [toJsonCore, containsEnumVariant, Except.isOk, Except.toBool]
  | unevaluated s =>
      simp [toJsonCore, containsEnumVariant, containsUnevaluated, Except.isOk, Except.toBool]
  | null =>
      simp [toJsonCore, containsEnumVariant, containsUnevaluated, Except.isOk, Except.toBool]
  | bool b =>
      simp [toJsonCore, containsEnumVariant, containsUnevaluated, Except.isOk, Except.toBool]
  | number q =>
      simp [toJsonCore, containsEnumVariant, containsUnevaluated, Except.isOk, Except.toBool]
  | str s =>
      simp [toJsonCore, containsEnumVariant, containsUnevaluated, Except.isOk, Except.toBool]
  | enumTag t =>
      simp [toJsonCore, containsEnumVariant, containsUnevaluated, Except.isOk, Except.toBool]

theorem toJsonFields_isOk_iff (fs : List (String × Option NExpr))
    (h : fullySpecifiedFields fs = true) :
    (toJsonFields fs).isOk = false ↔
      (containsEnumVariantFields fs || containsUnevaluatedFields fs) = true := by
  cases fs with
  | nil =>
      simp [toJsonFields, containsEnumVariantFields, containsUnevaluatedFields,
        Except.isOk, Except.toBool]
  | cons x rest =>
      obtain ⟨k, ov⟩ := x
      cases ov with
      | none => simp [fullySpecifiedFields] at h
      | some v =>
          simp only [fullySpecifiedFields, Bool.and_eq_true] at h
          have h1 := toJsonCore_isOk_iff v h.1
          have h2 := toJsonFields_isOk_iff rest h.2
          simp only [toJsonFields, containsEnumVariantFields, containsUnevaluatedFields]
          cases hc : toJsonCore v with
          | ok sv =>
              simp only [hc] at h1
              cases hr : toJsonFields rest with
              | ok srest =>
                  simp only [hr] at h2
                  simp_all [Except.isOk, Except.toBool, Bool.or_eq_true]
              | error u =>
                  simp only [hr] at h2
                  simp_all [Except.isOk, Except.toBool, Bool.or_eq_true]
          | error u =>
              simp only [hc] at h1
              simp_all [Except.isOk, Except.toBool, Bool.or_eq_true]
              tauto

theorem toJsonElems_isOk_iff (es : List NExpr)
    (h : fullySpecifiedElems es = true) :
    (toJsonElems es).isOk = false ↔
      (containsEnumVariantElems es || containsUnevaluatedElems es) = true := by
  cases es with
  | nil =>
      simp [toJsonElems, containsEnumVariantElems, containsUnevaluatedElems,
        Except.isOk, Except.toBool]
  | cons v rest =>
      simp only [fullySpecifiedElems, Bool.and_eq_true] at h
      have h1 := toJsonCore_isOk_iff v h.1
      have h2 := toJsonElems_isOk_iff rest h.2
      simp only [toJsonElems, containsEnumVariantElems, containsUnevaluatedElems]
      cases hc : toJsonCore v with
      | ok sv =>
          simp only [hc] at h1
          cases hr : toJsonElems rest with
          | ok srest =>
              simp only [hr] at h2
              simp_all [Except.isOk, Except.toBool, Bool.or_eq_true]
          | error u =>
              simp only [hr] at h2
              simp_all [Except.isOk, Except.toBool, Bool.or_eq_true]
      | error u =>
          simp only [hc] at h1
          simp_all [Except.isOk, Except.toBool, Bool.or_eq_true]
          tauto

end

/-- For Except, mapping over the success value preserves the success
flag. -/
theorem map_isOk {A B : Type} (x : Except Unit A) (f : A → B) :
    (x.map f).isOk = x.isOk := by
  cases x <;> rfl

/-- C3: for every fully specified expression, serialization to JSON (and
likewise to YAML and to TOML) fails exactly when the expression transitively
contains an enum variant or transitively contains an unevaluated
sub-expression; otherwise it succeeds and produces the serialized bytes. -/
theorem C3_serialization_fails_iff (e : NExpr) (h : fullySpecified e = true) :
    ((nickel_context_expr_to_json e).isOk = false ↔
      (containsEnumVariant e || containsUnevaluated e) = true)
    ∧ ((nickel_context_expr_to_yaml e).isOk = false ↔
      (containsEnumVariant e || containsUnevaluated e) = true)
    ∧ ((nickel_context_expr_to_toml e).isOk = false ↔
      (containsEnumVariant e || containsUnevaluated e) = true) := by
  have hj := toJsonCore_isOk_iff e h
  refine ⟨hj, ?_, ?_⟩
  · simpa [nickel_context_expr_to_yaml, map_isOk] using hj
  · simpa [nickel_context_expr_to_toml, map_isOk] using hj

/-- C3 witness: a fully specified record holding an enum variant fails to
serialize to JSON. -/
theorem C3_witness :
    (nickel_context_expr_to_json
        (NExpr.record [("x", some (.enumVariant "A" .null))])).isOk = false :=
  (C3_serialization_fails_iff (NExpr.record [("x", some (.enumVariant "A" .null))])
      rfl).1.mpr rfl

/-- The keys of a successfully deep-evaluated field list are exactly the
keys of the source fields that survive the export filter. -/
theorem evalFieldsDeep_keys (fe : Bool) :
    ∀ (fs : List (String × Bool × Src)) (nfs : List (String × Option NExpr)),
      evalFieldsDeep fe fs = .ok nfs →
      nfs.map Prod.fst = (fs.filter (fun f => !(fe && f.2.1))).map Prod.fst := by
  intro fs
  induction fs with
  | nil =>
      intro nfs h
      simp only [evalFieldsDeep, Except.ok.injEq] at h
      subst h
      simp
  | cons x rest ih =>
      intro nfs h
      obtain ⟨k, ne, s⟩ := x
      cases hfe : fe && ne with
      | true =>
          simp only [evalFieldsDeep, hfe, if_true] at h
          rw [List.filter_cons_of_neg (by simp [hfe])]
          exact ih nfs h
      | false =>
          simp only [evalFieldsDeep, hfe] at h
          simp only [Bool.false_eq_true, if_false] at h
          cases hv : evalDeepAux fe s with
          | error u => simp [hv] at h
          | ok v =>
              cases hr : evalFieldsDeep fe rest with
              | error u => simp [hv, hr] at h
              | ok vs =>
                  simp only [hv, hr, Except.ok.injEq] at h
                  subst h
                  rw [List.filter_cons_of_pos (by simp [hfe])]
                  simp only [List.map_cons]
                  rw [ih vs hr]

/-- With distinct keys, the key of a field marked not_exported does not
survive the export filter. -/
theorem key_not_in_export_keys :
    ∀ (fs : List (String × Bool × Src)) (k : String) (v : Src),
      (k, true, v) ∈ fs → (fs.map Prod.fst).Nodup →
      k ∉ (fs.filter (fun f => !f.2.1)).map Prod.fst := by
  intro fs
  induction fs with
  | nil => intro k v hmem _; simp at hmem
  | cons x rest ih =>
      intro k v hmem hnodup
      obtain ⟨k0, ne0, s0⟩ := x
      have hhead0 : k0 ∉ rest.map Prod.fst :=
        (List.nodup_cons.mp (by simpa using hnodup)).1
      have htail0 : (rest.map Prod.fst).Nodup :=
        (List.nodup_cons.mp (by simpa using hnodup)).2
      rcases List.mem_cons.mp hmem with hhead | htail
      · injection hhead with h1 h2
        injection h2 with h2a h2b
        subst h1
        subst h2a
        subst h2b
        rw [List.filter_cons_of_neg (by simp)]
        intro hk_in
        obtain ⟨f, hfmem, hfk⟩ := List.mem_map.mp hk_in
        have hfrest : f ∈ rest := (List.mem_filter.mp hfmem).1
        exact hhead0 (hfk ▸ List.mem_map_of_mem Prod.fst hfrest)
      · have hnot := ih k v htail htail0
        have hkmem : k ∈ rest.map Prod.fst := List.mem_map_of_mem Prod.fst htail
        cases hne0 : ne0 with
        | true =>
            rw [List.filter_cons_of_neg (by simp [hne0])]
            exact hnot
        | false =>
            rw [List.filter_cons_of_pos (by simp [hne0])]
            simp only [List.map_cons]
            intro hk_in
            rcases List.mem_cons.mp hk_in with heq | hin
            · exact hhead0 (heq ▸ hkmem)
            · exact hnot hin


mutual

/-- On sources with no not_exported field, the for-export evaluator agrees
with the plain deep evaluator. -/
theorem evalDeepAux_export_agrees (s : Src) (h : srcNoNotExported s = true) :
    evalDeepAux true s = evalDeepAux false s := by
  cases s with
  | add a b =>
      simp only [srcNoNotExported, Bool.and_eq_true] at h
      simp only [evalDeepAux, evalDeepAux_export_agrees a h.1,
        evalDeepAux_export_agrees b h.2]
  | enumVariant t p =>
      simp only [srcNoNotExported] at h
      simp only [evalDeepAux, evalDeepAux_export_agrees p h]
  | record fs =>
      simp only [srcNoNotExported] at h
      simp only [evalDeepAux, evalFieldsDeep_export_agrees fs h]
  | array es =>
      simp only [srcNoNotExported] at h
      simp only [evalDeepAux, evalElemsDeep_export_agrees es h]
  | num q => rfl
  | boolLit b => rfl
  | strLit t => rfl
  | nullLit => rfl
  | enumTag t => rfl

/-- Field-list version of the export agreement. -/
theorem evalFieldsDeep_export_agrees (fs : List (String × Bool × Src))
    (h : srcFieldsNoNotExported fs = true) :
    evalFieldsDeep true fs = evalFieldsDeep false fs := by
  cases fs with
  | nil => rfl
  | cons x rest =>
      obtain ⟨k, ne, s⟩ := x
      simp only [srcFieldsNoNotExported, Bool.and_eq_true] at h
      obtain ⟨⟨hne, hs⟩, hrest⟩ := h
      have hne' : ne = false := by simpa using hne
      subst hne'
      simp only [evalFieldsDeep, Bool.and_false, Bool.false_eq_true, if_false,
        evalDeepAux_export_agrees s hs, evalFieldsDeep_export_agrees rest hrest]

/-- Element-list version of the export agreement. -/
theorem evalElemsDeep_export_agrees (es : List Src)
    (h : srcElemsNoNotExported es = true) :
    evalElemsDeep true es = evalElemsDeep false es := by
  cases es with
  | nil => rfl
  | cons s rest =>
      simp only [srcElemsNoNotExported, Bool.and_eq_true] at h
      simp only [evalElemsDeep, evalDeepAux_export_agrees s h.1,
        evalElemsDeep_export_agrees rest h.2]

end

/-- C6: for every record source containing a field marked not-for-export
(under distinct keys), a successful nickel_context_eval_deep yields a record
in which that field is present, while a successful
nickel_context_eval_deep_for_export yields a record in which that field is
absent; on sources with no such mark the two operations are identical. -/
theorem C6_export_filtering (fs : List (String × Bool × Src)) (k : String) (v : Src)
    (hmem : (k, true, v) ∈ fs) (hnodup : (fs.map Prod.fst).Nodup) :
    (∀ r, nickel_context_eval_deep (.record fs) = .ok r →
        ∃ nfs, r = .record nfs ∧ k ∈ nfs.map Prod.fst)
    ∧ (∀ r, nickel_context_eval_deep_for_export (.record fs) = .ok r →
        ∃ nfs, r = .record nfs ∧ k ∉ nfs.map Prod.fst)
    ∧ (∀ s : Src, srcNoNotExported s = true →
        nickel_context_eval_deep_for_export s = nickel_context_eval_deep s) := by
  refine ⟨?_, ?_, ?_⟩
  · intro r hr
    simp only [nickel_context_eval_deep, evalDeepAux] at hr
    cases hf : evalFieldsDeep false fs with
    | error u => rw [hf] at hr; simp at hr
    | ok nfs =>
        rw [hf] at hr
        simp only [Except.ok.injEq] at hr
        refine ⟨nfs, hr.symm, ?_⟩
        have hkeys := evalFieldsDeep_keys false fs nfs hf
        have : nfs.map Prod.fst = fs.map Prod.fst := by
          simpa using hkeys
        rw [this]
        exact List.mem_map_of_mem Prod.fst hmem
  · intro r hr
    simp only [nickel_context_eval_deep_for_export, evalDeepAux] at hr
    cases hf : evalFieldsDeep true fs with
    | error u => rw [hf] at hr; simp at hr
    | ok nfs =>
        rw [hf] at hr
        simp only [Except.ok.injEq] at hr
        refine ⟨nfs, hr.symm, ?_⟩
        have hkeys := evalFieldsDeep_keys true fs nfs hf
        have hsimp : nfs.map Prod.fst = (fs.filter (fun f => !f.2.1)).map Prod.fst := by
          simpa using hkeys
        rw [hsimp]
        exact key_not_in_export_keys fs k v hmem hnodup
  · intro s hs
    exact evalDeepAux_export_agrees s hs

/-- C6 witness: the theorem applied to a concrete two-field record whose
first field is marked not_exported. -/
theorem C6_witness :
    (∃ nfs, NExpr.record [("secret", some (NExpr.number 1)), ("pub", some (NExpr.number 2))] =
        NExpr.record nfs ∧ "secret" ∈ nfs.map Prod.fst)
    ∧ (∃ nfs, NExpr.record [("pub", some (NExpr.number 2))] = NExpr.record nfs ∧
        "secret" ∉ nfs.map Prod.fst) := by
  have h := C6_export_filtering [("secret", true, Src.num 1), ("pub", false, Src.num 2)]
    "secret" (Src.num 1) (List.mem_cons_self _ _) (by decide)
  exact ⟨h.1 _ rfl, h.2.1 _ rfl⟩

end Nickel
